import Mathlib

/-!
Verification development for the two driver programs of the repository:
`src/counter.cpp` (magnitude-bucketed histogram of divisor counts) and
`src/imprimitive.cpp` (divisibility filter).  The C++ code is shallowly
embedded below: arbitrary-precision `mpz_class` values become `Int`,
the fixed `uint32_t prime_count[20]` array becomes a total map
`Nat → Nat` (which additionally records the indices the C array would
access out of bounds), and operations that would throw (invalid
`mpz_class` string conversion) or invoke undefined behaviour
(`v_nums[0]` on an empty vector) are modelled as `Option` failures.
-/

/-- Whitespace characters of the C default locale (`isspace`): space,
tab, line feed, vertical tab, form feed, carriage return.  GMP's string
conversion skips these wherever they occur in its input. -/
def isSpaceChar (c : Char) : Bool :=
  c == ' ' || c == '\t' || c == '\n' || c == '\x0b' || c == '\x0c' || c == '\r'

/-- Scanning loop of GMP's digit conversion after the first digit: a
digit is accumulated into the value, a whitespace character is skipped,
and any other character makes the conversion fail. -/
def digitsLoop : List Char → Nat → Option Nat
  | [], acc => some acc
  | c :: rest, acc =>
      if isSpaceChar c then digitsLoop rest acc
      else if c.isDigit then digitsLoop rest (10 * acc + (c.toNat - 48))
      else none

/-- Start of GMP's digit conversion: the character right after the
optional minus sign (with no whitespace skipped at that position) must be
a decimal digit, or the conversion fails. -/
def readNum : List Char → Option Nat
  | [] => none
  | c :: rest => if c.isDigit then digitsLoop rest (c.toNat - 48) else none

/-- Models the conversion `mpz_class(temp_string, 10)` applied to a token
(`src/counter.cpp` line 39, `src/imprimitive.cpp` line 45), following
GMP's `mpz_set_str` in base 10: leading whitespace is skipped, an
optional single minus sign may follow, the very next character must be a
decimal digit, and from there digits accumulate while whitespace
characters are skipped wherever they occur; any other character makes the
constructor throw, modelled as `none`.  In particular a token such as a
carriage-return-trailing digit run is accepted with the whitespace
ignored. -/
def parseToken (s : String) : Option Int :=
  match s.data.dropWhile isSpaceChar with
  | '-' :: rest => (readNum rest).map (fun n => -(n : Int))
  | l => (readNum l).map (fun n => (n : Int))

/-- A token that is literally a base-10 integer as the spec describes the
input tokens: an optional leading minus sign followed by a nonempty run
of decimal digits and nothing else.  Stated from the spec's words, for
comparison with the source's actual acceptance behaviour. -/
def specValidBase10Token (s : String) : Bool :=
  match s.data with
  | [] => false
  | '-' :: rest => !rest.isEmpty && rest.all Char.isDigit
  | l => l.all Char.isDigit

/-- Models the token loop `while (getline(ss, temp_string, ' '))`
(`src/counter.cpp` lines 36-40): characters are accumulated until a space
is consumed (emitting the accumulated token, possibly empty) ; at end of
input the final accumulated token is emitted only if at least one
character was read, since `getline` fails when it extracts nothing. -/
def tokenizeAux : List Char → List Char → List String
  | [], acc => if acc = [] then [] else [String.mk acc.reverse]
  | c :: rest, acc =>
      if c = ' ' then String.mk acc.reverse :: tokenizeAux rest []
      else tokenizeAux rest (c :: acc)

/-- Token list of one input line, as produced by the `getline` loop. -/
def tokenize (line : String) : List String :=
  tokenizeAux line.data []

/-- Models filling `v_nums` by converting every token
(`mpz_class(temp_string, 10)` on each): the whole line fails if any single
token fails to convert. -/
def parseTokens : List String → Option (List Int)
  | [] => some []
  | t :: ts =>
      match parseToken t, parseTokens ts with
      | some n, some ns => some (n :: ns)
      | _, _ => none

/-- One parsed input line: `v_nums[0]` is the principal (candidate) number
and `v_nums[i]` for `i > 0` are its recorded divisors. -/
structure Record where
  principal : Int
  divisors : List Int
deriving DecidableEq

/-- Parse one line into a `Record`: tokenize, convert every token, and take
the first value as the principal.  An empty line leaves `v_nums` empty, so
the programs' subsequent access `v_nums[0]` is out of bounds; that is
modelled as `none`, as is a token on which the `mpz_class` conversion
throws. -/
def parseRecord (line : String) : Option Record :=
  match parseTokens (tokenize line) with
  | none => none
  | some [] => none
  | some (p :: ds) => some { principal := p, divisors := ds }

/-- One emitted histogram row (`src/counter.cpp` lines 48-52 and 63-67):
`prime_count[j]` for `j = 4..14` followed by `prime_count[15]`, i.e. the
twelve counts of buckets 4 through 15. -/
def rowOf (pc : Nat → Nat) : List Nat :=
  (List.range' 4 11).map pc ++ [pc 15]

/-- Models `prime_count[k]++` on the count map. -/
def bump (pc : Nat → Nat) (k : Nat) : Nat → Nat :=
  fun j => if j = k then pc j + 1 else pc j

/-- Fuel-indexed unfolding of the threshold loop
`while (bound < v_nums[0]) { i++; bound *= 10; <print row>; }`
(`src/counter.cpp` lines 43-53).  Returns the final `bound`, the final `i`,
and the rows printed, in order.  The fuel `(p - bound).toNat` supplied by
`scaleLoop` is enough to run the loop to completion whenever `0 < bound`,
which holds at every reachable state since `bound` starts at 1000 and is
only ever multiplied by 10 (`scaleLoop_spec` below). -/
def scaleLoopAux : Nat → Int → Int → Nat → (Nat → Nat) → Int × Nat × List (List Nat)
  | 0, _, bound, i, _ => (bound, i, [])
  | fuel + 1, p, bound, i, pc =>
      if bound < p then
        let res := scaleLoopAux fuel p (bound * 10) (i + 1) pc
        (res.1, res.2.1, rowOf pc :: res.2.2)
      else (bound, i, [])

/-- The threshold loop of `src/counter.cpp` lines 43-53, run to completion
from the given state. -/
def scaleLoop (p bound : Int) (i : Nat) (pc : Nat → Nat) : Int × Nat × List (List Nat) :=
  scaleLoopAux (p - bound).toNat p bound i pc

/-- Mutable state of `src/counter.cpp`'s main loop: `bound`, the scaling
counter `i`, the processed-record counter `counter`, and the bucket array
`prime_count` (modelled as a total map). -/
structure CounterState where
  bound : Int
  i : Nat
  counter : Nat
  prime_count : Nat → Nat

/-- Initial state (`src/counter.cpp` lines 23-26): `bound = 1000`,
`i = 2`, `counter = 0`, all buckets zero. -/
def initState : CounterState :=
  { bound := 1000, i := 2, counter := 0, prime_count := fun _ => 0 }

/-- Processing of one record by the body of the main loop
(`src/counter.cpp` lines 43-56): run the threshold loop against
`v_nums[0]`, then `counter++` and `prime_count[v_nums.size()]++`, where
`v_nums.size()` is the token count, i.e. one more than the number of
divisors.  Returns the new state and the rows printed by the threshold
loop. -/
def processRecord (s : CounterState) (r : Record) : CounterState × List (List Nat) :=
  let res := scaleLoop r.principal s.bound s.i s.prime_count
  ({ bound := res.1, i := res.2.1, counter := s.counter + 1,
     prime_count := bump s.prime_count (r.divisors.length + 1) }, res.2.2)

/-- Main loop of `src/counter.cpp` over a list of already-parsed records,
collecting the rows printed along the way. -/
def runCounterAux : List Record → CounterState → CounterState × List (List Nat)
  | [], s => (s, [])
  | r :: rest, s =>
      let step := processRecord s r
      let res := runCounterAux rest step.1
      (res.1, step.2 ++ res.2)

/-- State and threshold-triggered rows after processing all records,
starting from the initial state. -/
def runCounter (rs : List Record) : CounterState × List (List Nat) :=
  runCounterAux rs initState

/-- Complete row output of `src/counter.cpp` on a record list: the
threshold-triggered rows followed by the unconditional final row
(lines 63-67). -/
def counterOutput (rs : List Record) : List (List Nat) :=
  (runCounter rs).2 ++ [rowOf (runCounter rs).1.prime_count]

/-- Whole-program behaviour of `src/counter.cpp` on the input lines:
every line is parsed into a record (a line that fails aborts the run,
modelled as `none`) and the histogram rows are produced. -/
def counterMain (lines : List String) : Option (List (List Nat)) :=
  match lines.mapM parseRecord with
  | none => none
  | some rs => some (counterOutput rs)

/-- The fixed divisor constant of `src/imprimitive.cpp` line 49. -/
def divisorConst : Int := 5717264681

/-- Whole-program behaviour of `src/imprimitive.cpp` on the input lines
(lines 35-54): each line is parsed, and the original line is written to
the output exactly when `v_nums[0] % divisor == 0`.  A line that fails to
parse aborts the run (modelled as `none`).  `Int`'s `%` agrees with GMP's
truncated `%` on whether the remainder is zero, which is the only use
made of it. -/
def imprimitiveMain : List String → Option (List String)
  | [] => some []
  | line :: rest =>
      match parseRecord line with
      | none => none
      | some r =>
          match imprimitiveMain rest with
          | none => none
          | some out =>
              some (if r.principal % divisorConst = 0 then line :: out else out)

/-- Predicate the filter applies to a line: it parses and its principal is
divisible by `divisorConst`. -/
def keepLine (line : String) : Bool :=
  match parseRecord line with
  | some r => r.principal % divisorConst == 0
  | none => false

/-- Bucket indices whose counts appear in the conservation statement of
the spec: the reported range 4..15 together with the clamp bucket 19. -/
def reportedBucket (k : Nat) : Prop :=
  (4 ≤ k ∧ k ≤ 15) ∨ k = 19

instance (k : Nat) : Decidable (reportedBucket k) := by
  unfold reportedBucket; infer_instance

/-- Sum of the twelve reported bucket counts plus the clamp bucket 19. -/
def bucketSum (pc : Nat → Nat) : Nat :=
  (rowOf pc).sum + pc 19

/-- Pointwise order on emitted rows. -/
def rowLE (a b : List Nat) : Prop :=
  List.Forall₂ (· ≤ ·) a b

/-- Pointwise order on bucket count maps. -/
def countsLE (f g : Nat → Nat) : Prop :=
  ∀ k, f k ≤ g k

/-- Invariant of the threshold state claimed by the spec: the scaling
counter has its initial value 2 or more, and the bound is
`1000 * 10^(i-2)`. -/
def ThresholdInv (s : CounterState) : Prop :=
  2 ≤ s.i ∧ s.bound = 1000 * 10 ^ (s.i - 2)

/-- Characterization of the fuel-indexed threshold loop: when the current
bound is positive and the fuel is at least `(p - bound).toNat`, the loop
scales some `n` times, multiplying the bound by `10^n`, adding `n` to `i`,
and printing `n` copies of the row of the (unchanged) current counts; the
guard `bound < p` holds at every iteration entered and fails at exit. -/
theorem scaleLoopAux_spec :
    ∀ (fuel : Nat) (p bound : Int) (i : Nat) (pc : Nat → Nat),
      0 < bound → (p - bound).toNat ≤ fuel →
      ∃ n : Nat,
        scaleLoopAux fuel p bound i pc
          = (bound * 10 ^ n, i + n, List.replicate n (rowOf pc))
        ∧ (∀ k < n, bound * 10 ^ k < p) ∧ ¬ bound * 10 ^ n < p := by
  intro fuel
  induction fuel with
  | zero =>
      intro p bound i pc hb hf
      refine ⟨0, by simp [scaleLoopAux], by omega, ?_⟩
      simp only [pow_zero, mul_one]
      omega
  | succ fuel ih =>
      intro p bound i pc hb hf
      by_cases hlt : bound < p
      · have hb10 : 0 < bound * 10 := by positivity
        have hf' : (p - bound * 10).toNat ≤ fuel := by omega
        obtain ⟨n, heq, hg, hge⟩ := ih p (bound * 10) (i + 1) pc hb10 hf'
        refine ⟨n + 1, ?_, ?_, ?_⟩
        · simp only [scaleLoopAux, if_pos hlt, heq, List.replicate_succ, Prod.mk.injEq]
          exact ⟨by ring, by omega, trivial⟩
        · intro k hk
          rcases k with _ | k
          · simpa using hlt
          · have h := hg k (by omega)
            calc bound * 10 ^ (k + 1) = bound * 10 * 10 ^ k := by ring
              _ < p := h
        · intro hcon
          refine hge ?_
          calc bound * 10 * 10 ^ n = bound * 10 ^ (n + 1) := by ring
            _ < p := hcon
      · refine ⟨0, by simp [scaleLoopAux, hlt], by omega, ?_⟩
        simpa using hlt

/-- The threshold loop as invoked (with fuel `(p - bound).toNat`) runs to
completion whenever the bound is positive. -/
theorem scaleLoop_spec (p bound : Int) (i : Nat) (pc : Nat → Nat) (hb : 0 < bound) :
    ∃ n : Nat,
      scaleLoop p bound i pc = (bound * 10 ^ n, i + n, List.replicate n (rowOf pc))
      ∧ (∀ k < n, bound * 10 ^ k < p) ∧ ¬ bound * 10 ^ n < p :=
  scaleLoopAux_spec _ p bound i pc hb le_rfl

/-- Every row printed by the threshold loop is a copy of the row of the
counts at loop entry (the counts are not touched inside the loop), with no
hypothesis on the state. -/
theorem scaleLoopAux_rows :
    ∀ (fuel : Nat) (p bound : Int) (i : Nat) (pc : Nat → Nat),
      ∃ n, (scaleLoopAux fuel p bound i pc).2.2 = List.replicate n (rowOf pc) := by
  intro fuel
  induction fuel with
  | zero => intro p bound i pc; exact ⟨0, rfl⟩
  | succ fuel ih =>
      intro p bound i pc
      by_cases hlt : bound < p
      · obtain ⟨n, hn⟩ := ih p (bound * 10) (i + 1) pc
        exact ⟨n + 1, by simp [scaleLoopAux, if_pos hlt, hn, List.replicate_succ]⟩
      · exact ⟨0, by simp [scaleLoopAux, hlt]⟩

/-- The threshold loop preserves the bound/magnitude invariant, never
decreases the bound, and strictly increases it whenever it fires at
all (i.e. whenever the guard holds on entry). -/
theorem scaleLoop_inv (p b : Int) (i : Nat) (pc : Nat → Nat)
    (h2 : 2 ≤ i) (hb : b = 1000 * 10 ^ (i - 2)) :
    2 ≤ (scaleLoop p b i pc).2.1
    ∧ (scaleLoop p b i pc).1 = 1000 * 10 ^ ((scaleLoop p b i pc).2.1 - 2)
    ∧ b ≤ (scaleLoop p b i pc).1
    ∧ (b < p → b < (scaleLoop p b i pc).1) := by
  have hbpos : 0 < b := by rw [hb]; positivity
  obtain ⟨n, heq, hg, hge⟩ := scaleLoop_spec p b i pc hbpos
  rw [heq]
  dsimp only
  have hp0 : (0 : Int) < 10 ^ n := by positivity
  have hp1 : (1 : Int) ≤ 10 ^ n := by omega
  refine ⟨by omega, ?_, ?_, ?_⟩
  · rw [hb, mul_assoc, ← pow_add]
    have hexp : i - 2 + n = i + n - 2 := by omega
    rw [hexp]
  · calc b = b * 1 := (mul_one b).symm
      _ ≤ b * 10 ^ n := mul_le_mul_of_nonneg_left hp1 hbpos.le
  · intro hlt
    rcases n with _ | m
    · exact absurd (by simpa using hlt) hge
    · have h10 : (10 : Int) ≤ 10 ^ (m + 1) := by
        calc (10 : Int) = 10 ^ 1 := (pow_one 10).symm
          _ ≤ 10 ^ (m + 1) := pow_le_pow_right₀ (by norm_num) (by omega)
      have hh := mul_le_mul_of_nonneg_left h10 hbpos.le
      linarith

/-- Processing one record preserves the threshold invariant. -/
theorem processRecord_inv (s : CounterState) (r : Record) (h : ThresholdInv s) :
    ThresholdInv (processRecord s r).1 := by
  obtain ⟨h2, hb⟩ := h
  have hs := scaleLoop_inv r.principal s.bound s.i s.prime_count h2 hb
  exact ⟨hs.1, hs.2.1⟩

/-- The main loop preserves the threshold invariant. -/
theorem runCounterAux_inv :
    ∀ (rs : List Record) (s : CounterState),
      ThresholdInv s → ThresholdInv (runCounterAux rs s).1 := by
  intro rs
  induction rs with
  | nil => intro s h; exact h
  | cons r rest ih => intro s h; exact ih _ (processRecord_inv s r h)

/-- The record counter counts exactly the records processed. -/
theorem runCounterAux_counter :
    ∀ (rs : List Record) (s : CounterState),
      (runCounterAux rs s).1.counter = s.counter + rs.length := by
  intro rs
  induction rs with
  | nil => intro s; rfl
  | cons r rest ih =>
      intro s
      show (runCounterAux rest (processRecord s r).1).1.counter = s.counter + (r :: rest).length
      rw [ih]
      show s.counter + 1 + rest.length = s.counter + (rest.length + 1)
      omega

/-- Pointwise description of a single bucket increment. -/
theorem bump_apply (pc : Nat → Nat) (k j : Nat) :
    bump pc k j = pc j + if j = k then 1 else 0 := by
  by_cases h : j = k <;> simp [bump, h]

/-- Summing the bucket map over any index list after an increment adds the
multiplicity of the incremented index in that list. -/
theorem sum_map_bump (pc : Nat → Nat) (k : Nat) :
    ∀ l : List Nat, (l.map (bump pc k)).sum = (l.map pc).sum + l.count k := by
  intro l
  induction l with
  | nil => simp
  | cons a l ih =>
      simp only [List.map_cons, List.sum_cons, ih, bump_apply, List.count_cons]
      by_cases h : a = k <;> simp [h] <;> omega

/-- Incrementing bucket `k` raises the reported-plus-clamp sum by one
exactly when `k` is a reported bucket or the clamp bucket. -/
theorem bucketSum_bump (pc : Nat → Nat) (k : Nat) :
    bucketSum (bump pc k) = bucketSum pc + if reportedBucket k then 1 else 0 := by
  have hrow : ∀ f : Nat → Nat,
      bucketSum f = (([4, 5, 6, 7, 8, 9, 10, 11, 12, 13, 14, 15, 19] : List Nat).map f).sum := by
    intro f
    have hr : List.range' 4 11 = [4, 5, 6, 7, 8, 9, 10, 11, 12, 13, 14] := rfl
    simp [bucketSum, rowOf, hr, List.sum_append]
    omega
  rw [hrow, hrow, sum_map_bump]
  have hcount : ([4, 5, 6, 7, 8, 9, 10, 11, 12, 13, 14, 15, 19] : List Nat).count k
      = if reportedBucket k then 1 else 0 := by
    rcases lt_or_ge k 20 with hk | hk
    · interval_cases k <;> decide
    · have h1 : k ∉ ([4, 5, 6, 7, 8, 9, 10, 11, 12, 13, 14, 15, 19] : List Nat) := by
        intro hm
        simp at hm
        omega
      have h2 : ¬ reportedBucket k := by unfold reportedBucket; omega
      simp [List.count_eq_zero_of_not_mem h1, h2]
  rw [hcount]

/-- Along the main loop, the reported-plus-clamp sum grows by one per
record whose bucket index (token count) is reported or the clamp. -/
theorem runCounterAux_bucketSum :
    ∀ (rs : List Record) (s : CounterState),
      bucketSum (runCounterAux rs s).1.prime_count
        = bucketSum s.prime_count
          + rs.countP (fun r => decide (reportedBucket (r.divisors.length + 1))) := by
  intro rs
  induction rs with
  | nil => intro s; simp [runCounterAux]
  | cons r rest ih =>
      intro s
      show bucketSum (runCounterAux rest (processRecord s r).1).1.prime_count = _
      rw [ih]
      have hpc : (processRecord s r).1.prime_count
          = bump s.prime_count (r.divisors.length + 1) := rfl
      rw [hpc, bucketSum_bump]
      simp only [List.countP_cons, decide_eq_true_eq]
      omega

/-- Unfolding of one step of the main loop. -/
theorem runCounterAux_cons (r : Record) (rest : List Record) (s : CounterState) :
    runCounterAux (r :: rest) s
      = ((runCounterAux rest (processRecord s r).1).1,
         (processRecord s r).2 ++ (runCounterAux rest (processRecord s r).1).2) := rfl

/-- Processing a record updates the counts by a single increment at the
token-count index. -/
theorem processRecord_counts (s : CounterState) (r : Record) :
    (processRecord s r).1.prime_count = bump s.prime_count (r.divisors.length + 1) := rfl

/-- The rows printed while processing one record are copies of the row of
the counts before that record is added. -/
theorem processRecord_rows (s : CounterState) (r : Record) :
    ∃ n, (processRecord s r).2 = List.replicate n (rowOf s.prime_count) :=
  scaleLoopAux_rows _ _ _ _ _

/-- The emitted row lists the counts of buckets 4 through 15 in order. -/
theorem rowOf_eq (pc : Nat → Nat) :
    rowOf pc = (List.range 12).map (fun j => pc (4 + j)) := rfl

/-- The pointwise row order is reflexive. -/
theorem rowLE_refl (a : List Nat) : rowLE a a := by
  unfold rowLE
  induction a with
  | nil => exact List.Forall₂.nil
  | cons x l ih => exact List.Forall₂.cons le_rfl ih

/-- The pointwise row order is transitive. -/
theorem rowLE_trans {a b c : List Nat} (h1 : rowLE a b) (h2 : rowLE b c) : rowLE a c := by
  unfold rowLE at h1 h2 ⊢
  induction h1 generalizing c with
  | nil => cases h2; exact List.Forall₂.nil
  | cons hxy _ ih =>
      cases h2 with
      | cons hyz h' => exact List.Forall₂.cons (le_trans hxy hyz) (ih h')

/-- The counts order is reflexive. -/
theorem countsLE_refl (f : Nat → Nat) : countsLE f f := fun _ => le_rfl

/-- The counts order is transitive. -/
theorem countsLE_trans {f g h : Nat → Nat} (h1 : countsLE f g) (h2 : countsLE g h) :
    countsLE f h := fun k => le_trans (h1 k) (h2 k)

/-- Bumping one bucket only increases the counts pointwise. -/
theorem countsLE_bump (pc : Nat → Nat) (k : Nat) : countsLE pc (bump pc k) := by
  intro j
  rw [bump_apply]
  omega

/-- Mapping two pointwise-ordered maps over the same index list yields
pointwise-ordered rows. -/
theorem forall₂_map_le {f g : Nat → Nat} (h : countsLE f g) :
    ∀ l : List Nat, List.Forall₂ (· ≤ ·) (l.map f) (l.map g) := by
  intro l
  induction l with
  | nil => exact List.Forall₂.nil
  | cons a l ih => exact List.Forall₂.cons (h a) ih

/-- Emitted rows are monotone in the counts. -/
theorem rowOf_mono {f g : Nat → Nat} (h : countsLE f g) : rowLE (rowOf f) (rowOf g) := by
  have hf : rowOf f = (List.range' 4 12).map f := rfl
  have hg : rowOf g = (List.range' 4 12).map g := rfl
  rw [hf, hg]
  exact forall₂_map_le h _

/-- A constant row list is a chain for the row order. -/
theorem chain'_replicate_rowLE (n : Nat) (x : List Nat) :
    List.Chain' rowLE (List.replicate n x) := by
  induction n with
  | zero => exact List.chain'_nil
  | succ n ih =>
      rw [List.replicate_succ]
      cases n with
      | zero => simp
      | succ m =>
          rw [List.replicate_succ, List.chain'_cons]
          exact ⟨rowLE_refl x, by rw [← List.replicate_succ]; exact ih⟩

/-- Along the main loop the counts grow pointwise, the full sequence of
rows (threshold rows plus the final row) forms a chain for the pointwise
order, and every row lies between the row of the starting counts and the
row of the final counts. -/
theorem runCounterAux_chain :
    ∀ (rs : List Record) (s : CounterState),
      countsLE s.prime_count (runCounterAux rs s).1.prime_count
      ∧ List.Chain' rowLE
          ((runCounterAux rs s).2 ++ [rowOf (runCounterAux rs s).1.prime_count])
      ∧ (∀ row ∈ (runCounterAux rs s).2 ++ [rowOf (runCounterAux rs s).1.prime_count],
          rowLE (rowOf s.prime_count) row)
      ∧ (∀ row ∈ (runCounterAux rs s).2 ++ [rowOf (runCounterAux rs s).1.prime_count],
          rowLE row (rowOf (runCounterAux rs s).1.prime_count)) := by
  intro rs
  induction rs with
  | nil =>
      intro s
      have hmem : ∀ row ∈ (runCounterAux ([] : List Record) s).2
          ++ [rowOf (runCounterAux ([] : List Record) s).1.prime_count],
          row = rowOf s.prime_count := by
        intro row hrow
        simpa [runCounterAux] using hrow
      refine ⟨countsLE_refl _, by simp [runCounterAux], ?_, ?_⟩
      · intro row hrow
        rw [hmem row hrow]
        exact rowLE_refl _
      · intro row hrow
        rw [hmem row hrow]
        exact rowLE_refl _
  | cons r rest ih =>
      intro s
      obtain ⟨hc, hchain, hlow, hhigh⟩ := ih (processRecord s r).1
      obtain ⟨n, hrows⟩ := processRecord_rows s r
      have hcle : countsLE s.prime_count (processRecord s r).1.prime_count := by
        rw [processRecord_counts]
        exact countsLE_bump _ _
      have hlow' : ∀ row ∈ (runCounterAux rest (processRecord s r).1).2
            ++ [rowOf (runCounterAux rest (processRecord s r).1).1.prime_count],
          rowLE (rowOf s.prime_count) row := by
        intro row hr
        exact rowLE_trans (rowOf_mono hcle) (hlow row hr)
      rw [runCounterAux_cons]
      dsimp only
      rw [hrows, List.append_assoc]
      refine ⟨countsLE_trans hcle hc, ?_, ?_, ?_⟩
      · refine List.Chain'.append (chain'_replicate_rowLE n _) hchain ?_
        intro x hx y hy
        have hxe : x = rowOf s.prime_count :=
          List.eq_of_mem_replicate (List.mem_of_mem_getLast? hx)
        rw [hxe]
        exact hlow' y (List.mem_of_mem_head? hy)
      · intro row hrow
        rcases List.mem_append.mp hrow with hmem | hmem
        · rw [List.eq_of_mem_replicate hmem]
          exact rowLE_refl _
        · exact hlow' row hmem
      · intro row hrow
        rcases List.mem_append.mp hrow with hmem | hmem
        · rw [List.eq_of_mem_replicate hmem]
          exact rowOf_mono (countsLE_trans hcle hc)
        · exact hhigh row hmem

/-- The filter program's output is exactly the sublist of input lines
kept by the divisibility predicate. -/
theorem imprimitiveMain_eq_filter :
    ∀ (lines out : List String), imprimitiveMain lines = some out →
      out = lines.filter keepLine := by
  intro lines
  induction lines with
  | nil =>
      intro out h
      simp [imprimitiveMain] at h
      subst h
      simp
  | cons l rest ih =>
      intro out h
      cases hp : parseRecord l with
      | none => simp [imprimitiveMain, hp] at h
      | some r =>
          cases hm : imprimitiveMain rest with
          | none => simp [imprimitiveMain, hp, hm] at h
          | some out' =>
              simp [imprimitiveMain, hp, hm] at h
              rw [← h, List.filter_cons, ← ih out' hm]
              by_cases hd : r.principal % divisorConst = 0
              · have hk : keepLine l = true := by simp [keepLine, hp, hd]
                simp [hd, hk]
                exact Int.dvd_of_emod_eq_zero hd
              · have hk : ¬ keepLine l = true := by simp [keepLine, hp, hd]
                simp [hd, hk]
                intro hdvd
                exact hd (Int.emod_eq_zero_of_dvd hdvd)

/-- A line failing any token conversion makes the whole line conversion
fail, and conversely. -/
theorem parseTokens_eq_none :
    ∀ ts : List String, parseTokens ts = none ↔ ∃ t ∈ ts, parseToken t = none := by
  intro ts
  induction ts with
  | nil => simp [parseTokens]
  | cons t ts ih =>
      constructor
      · intro h
        cases hp : parseToken t with
        | none => exact ⟨t, List.mem_cons_self t ts, hp⟩
        | some n =>
            cases hr : parseTokens ts with
            | none =>
                obtain ⟨u, hu, hun⟩ := ih.mp hr
                exact ⟨u, List.mem_cons_of_mem t hu, hun⟩
            | some ns => simp [parseTokens, hp, hr] at h
      · rintro ⟨u, hu, hun⟩
        rcases List.mem_cons.mp hu with rfl | hu'
        · simp [parseTokens, hun]
        · have hts : parseTokens ts = none := ih.mpr ⟨u, hu', hun⟩
          cases hp : parseToken u <;> simp [parseTokens, hp, hts]

/-- The line conversion yields an empty value vector exactly on an empty
token list. -/
theorem parseTokens_some_nil :
    ∀ ts : List String, parseTokens ts = some [] ↔ ts = [] := by
  intro ts
  cases ts with
  | nil => simp [parseTokens]
  | cons t ts =>
      constructor
      · intro h
        cases hp : parseToken t <;> cases hr : parseTokens ts <;>
          simp [parseTokens, hp, hr] at h
      · intro h
        simp at h

/-- A nonempty accumulator or nonempty remaining input always produces at
least one token. -/
theorem tokenizeAux_ne_nil :
    ∀ (l acc : List Char), acc ≠ [] ∨ l ≠ [] → tokenizeAux l acc ≠ [] := by
  intro l
  induction l with
  | nil =>
      intro acc h
      rcases h with h | h
      · simp [tokenizeAux, h]
      · simp at h
  | cons c rest ih =>
      intro acc h
      by_cases hc : c = ' '
      · simp [tokenizeAux, hc]
      · simp only [tokenizeAux, if_neg hc]
        exact ih (c :: acc) (Or.inl (by simp))

/-- A line has no tokens exactly when it is the empty line. -/
theorem tokenize_eq_nil :
    ∀ line : String, tokenize line = [] ↔ line = "" := by
  intro line
  cases line with
  | mk data =>
      cases data with
      | nil => constructor <;> (intro; rfl)
      | cons c cs =>
          constructor
          · intro h
            exact absurd h (tokenizeAux_ne_nil (c :: cs) [] (Or.inr (by simp)))
          · intro h
            have h2 : c :: cs = [] := by
              have hrfl : ("" : String) = String.mk [] := rfl
              rw [hrfl] at h
              injection h
            simp at h2

/-- Record parsing fails exactly on the empty line (no principal token) or
on a line with a token on which the integer conversion fails. -/
theorem parseRecord_eq_none :
    ∀ line : String,
      parseRecord line = none
        ↔ (line = "" ∨ ∃ t ∈ tokenize line, parseToken t = none) := by
  intro line
  constructor
  · intro h
    cases hp : parseTokens (tokenize line) with
    | none => exact Or.inr ((parseTokens_eq_none _).mp hp)
    | some l =>
        cases l with
        | nil => exact Or.inl ((tokenize_eq_nil line).mp ((parseTokens_some_nil _).mp hp))
        | cons p ds => simp [parseRecord, hp] at h
  · intro h
    rcases h with h | h
    · have ht : tokenize line = [] := (tokenize_eq_nil line).mpr h
      simp [parseRecord, ht, parseTokens]
    · have ht : parseTokens (tokenize line) = none := (parseTokens_eq_none _).mpr h
      simp [parseRecord, ht]

/-- C1 (amended): processing a record increments exactly one bucket, but
its index is the token count `v_nums.size() = len(divisors) + 1`, not
`min(len(divisors), 19)`; no clamping is performed, so an index of 20 or
more falls outside the source's 20-slot array (the map model tracks it at
that index).  All other buckets are unchanged. -/
theorem C1_bucket_increment_amended :
    ∀ (s : CounterState) (r : Record),
      (processRecord s r).1.prime_count (r.divisors.length + 1)
          = s.prime_count (r.divisors.length + 1) + 1
      ∧ ∀ k : Nat, k ≠ r.divisors.length + 1 →
          (processRecord s r).1.prime_count k = s.prime_count k := by
  intro s r
  constructor
  · rw [processRecord_counts, bump_apply]
    simp
  · intro k hk
    rw [processRecord_counts, bump_apply, if_neg hk]
    omega

/-- Witness for C1: at a concrete record with no divisors, bucket 7
(different from the incremented bucket 1) is unchanged. -/
theorem C1_bucket_increment_witness :
    (processRecord initState { principal := 500, divisors := [] }).1.prime_count 7
      = initState.prime_count 7 :=
  (C1_bucket_increment_amended initState { principal := 500, divisors := [] }).2 7 (by decide)

/-- C1 counterexample: for the single-record input with principal 500 and
no divisors, the claim says bucket `min(len(divisors), 19) = 0` is the one
incremented, but after the run bucket 0 still holds 0 while bucket 1 (the
token count) holds 1, for 1 record processed. -/
theorem C1_bucket_counterexample :
    (runCounter [{ principal := 500, divisors := [] }]).1.prime_count
        (min (List.length ([] : List Int)) 19) = 0
    ∧ (runCounter [{ principal := 500, divisors := [] }]).1.prime_count 1 = 1
    ∧ (runCounter [{ principal := 500, divisors := [] }]).1.counter = 1 := by
  decide

/-- C2 (amended): per record, the threshold loop emits one cumulative row
and scales once (`i + 1`, `bound * 10`) per iteration of a loop that runs
while `record.principal > bound` strictly; a record whose principal equals
the current bound triggers no emission, and a record several decades above
the bound triggers one emission per decade crossed. -/
theorem C2_threshold_loop_amended :
    ∀ (s : CounterState) (r : Record), 0 < s.bound →
      ∃ n : Nat,
        (processRecord s r).2 = List.replicate n (rowOf s.prime_count)
        ∧ (processRecord s r).1.bound = s.bound * 10 ^ n
        ∧ (processRecord s r).1.i = s.i + n
        ∧ (∀ k < n, s.bound * 10 ^ k < r.principal)
        ∧ ¬ s.bound * 10 ^ n < r.principal := by
  intro s r hb
  obtain ⟨n, heq, hg, hge⟩ := scaleLoop_spec r.principal s.bound s.i s.prime_count hb
  refine ⟨n, ?_, ?_, ?_, hg, hge⟩
  · show (scaleLoop r.principal s.bound s.i s.prime_count).2.2 = _
    rw [heq]
  · show (scaleLoop r.principal s.bound s.i s.prime_count).1 = _
    rw [heq]
  · show (scaleLoop r.principal s.bound s.i s.prime_count).2.1 = _
    rw [heq]

/-- Witness for C2 at the initial state and a record one decade above the
bound. -/
theorem C2_threshold_witness :
    ∃ n : Nat,
      (processRecord initState { principal := 5000, divisors := [2, 3] }).2
          = List.replicate n (rowOf initState.prime_count)
      ∧ (processRecord initState { principal := 5000, divisors := [2, 3] }).1.bound
          = initState.bound * 10 ^ n
      ∧ (processRecord initState { principal := 5000, divisors := [2, 3] }).1.i
          = initState.i + n
      ∧ (∀ k < n, initState.bound * 10 ^ k
          < ({ principal := 5000, divisors := [2, 3] } : Record).principal)
      ∧ ¬ initState.bound * 10 ^ n
          < ({ principal := 5000, divisors := [2, 3] } : Record).principal :=
  C2_threshold_loop_amended initState { principal := 5000, divisors := [2, 3] } (by decide)

/-- C2 counterexample: a record whose principal is exactly the current
bound (1000 at start) triggers no emission, contrary to the claimed
`principal >= bound` guard: the loop guard is strict, and the only row
printed for this input is the final row. -/
theorem C2_threshold_counterexample :
    (runCounter [{ principal := 1000, divisors := [2, 3] }]).2 = []
    ∧ counterOutput [{ principal := 1000, divisors := [2, 3] }]
        = [[0, 0, 0, 0, 0, 0, 0, 0, 0, 0, 0, 0]] := by
  decide

/-- C3: the filter's output is exactly the subsequence, in input order, of
the original source lines (emitted verbatim) whose principal is divisible
by 5717264681; on the three-record example with principals 5717264681,
5717264682, 11434529362 exactly the first and third lines are kept. -/
theorem C3_filter_subsequence :
    (∀ (lines out : List String), imprimitiveMain lines = some out →
        out = lines.filter keepLine ∧ out.Sublist lines)
    ∧ imprimitiveMain
          [("5717264681 59 101"), ("5717264682 2 3"), ("11434529362 2 59")]
        = some [("5717264681 59 101"), ("11434529362 2 59")] := by
  constructor
  · intro lines out h
    have he := imprimitiveMain_eq_filter lines out h
    refine ⟨he, ?_⟩
    rw [he]
    exact List.filter_sublist lines
  · decide

/-- Witness for C3: the characterization applied at a concrete two-line
input. -/
theorem C3_filter_witness :
    [("11434529362 2 59")]
        = ([("5717264682 2 3"), ("11434529362 2 59")]).filter keepLine
    ∧ List.Sublist [("11434529362 2 59")]
        [("5717264682 2 3"), ("11434529362 2 59")] :=
  C3_filter_subsequence.1 [("5717264682 2 3"), ("11434529362 2 59")]
    [("11434529362 2 59")] (by decide)

/-- C4: after all records are processed exactly one final row is emitted
unconditionally: the output has one more row than the threshold loop
produced, its last row lists the twelve fully accumulated counts of
buckets 4 through 15, and on the empty input the single all-zero row is
the entire output. -/
theorem C4_final_row :
    ∀ rs : List Record,
      (counterOutput rs).length = (runCounter rs).2.length + 1
      ∧ (counterOutput rs).getLast?
          = some ((List.range 12).map (fun j => (runCounter rs).1.prime_count (4 + j)))
      ∧ counterMain [] = some [List.replicate 12 0] := by
  intro rs
  refine ⟨?_, ?_, by decide⟩
  · simp [counterOutput]
  · rw [counterOutput, List.getLast?_concat, rowOf_eq]

/-- C5: every threshold-triggered row is a snapshot of the cumulative
counts taken before the triggering record is added (the rows of one
record's loop are copies of the pre-increment row); on the four-record
input 500, 5000, 50000, 500000 with divisor counts 4, 5, 6, 7, exactly
three intermediate rows are emitted, each excluding the record that caused
its crossing, plus one final row. -/
theorem C5_pre_increment_snapshot :
    (∀ (s : CounterState) (r : Record),
        ∃ n, (processRecord s r).2 = List.replicate n (rowOf s.prime_count))
    ∧ counterOutput
          [{ principal := 500, divisors := [2, 3, 5, 7] },
           { principal := 5000, divisors := [2, 3, 5, 7, 11] },
           { principal := 50000, divisors := [2, 3, 5, 7, 11, 13] },
           { principal := 500000, divisors := [2, 3, 5, 7, 11, 13, 17] }]
        = [[0, 1, 0, 0, 0, 0, 0, 0, 0, 0, 0, 0],
           [0, 1, 1, 0, 0, 0, 0, 0, 0, 0, 0, 0],
           [0, 1, 1, 1, 0, 0, 0, 0, 0, 0, 0, 0],
           [0, 1, 1, 1, 1, 0, 0, 0, 0, 0, 0, 0]] :=
  ⟨fun s r => processRecord_rows s r, by decide⟩

/-- C6: the threshold invariant `bound = 1000 * 10^(i-2)` holds at
initialization (`bound = 1000`, `i = 2`), holds after processing any
record list, and is preserved by the threshold loop, which never decreases
the bound and strictly increases it whenever it fires at all. -/
theorem C6_bound_invariant :
    (initState.bound = 1000 ∧ initState.i = 2)
    ∧ (∀ rs : List Record,
        2 ≤ (runCounter rs).1.i
        ∧ (runCounter rs).1.bound = 1000 * 10 ^ ((runCounter rs).1.i - 2))
    ∧ (∀ (p b : Int) (i : Nat) (pc : Nat → Nat), 2 ≤ i → b = 1000 * 10 ^ (i - 2) →
        2 ≤ (scaleLoop p b i pc).2.1
        ∧ (scaleLoop p b i pc).1 = 1000 * 10 ^ ((scaleLoop p b i pc).2.1 - 2)
        ∧ b ≤ (scaleLoop p b i pc).1
        ∧ (b < p → b < (scaleLoop p b i pc).1)) := by
  refine ⟨⟨rfl, rfl⟩, ?_, scaleLoop_inv⟩
  intro rs
  exact runCounterAux_inv rs initState ⟨by decide, by decide⟩

/-- Witness for C6: the loop fired from the initial bound against a
principal one decade up strictly increases the bound. -/
theorem C6_bound_witness :
    (1000 : Int) < (scaleLoop 5000 1000 2 initState.prime_count).1 :=
  (C6_bound_invariant.2.2 5000 1000 2 initState.prime_count (by decide)
    (by decide)).2.2.2 (by decide)

/-- C7 (amended): the record counter equals the total number of records,
but the sum of the final row over buckets 4..15 plus the clamp bucket 19
equals the number of records whose token count (divisor count + 1) lies in
4..15 or equals 19 — not the total record count — because the bucket index
is the token count and no clamping into bucket 19 is performed. -/
theorem C7_conservation_amended :
    ∀ rs : List Record,
      (runCounter rs).1.counter = rs.length
      ∧ (rowOf (runCounter rs).1.prime_count).sum + (runCounter rs).1.prime_count 19
          = rs.countP (fun r => decide (reportedBucket (r.divisors.length + 1))) := by
  intro rs
  constructor
  · have h := runCounterAux_counter rs initState
    simpa [runCounter, initState] using h
  · have h := runCounterAux_bucketSum rs initState
    have hz : bucketSum initState.prime_count = 0 := by decide
    rw [hz] at h
    simpa [runCounter, bucketSum] using h

/-- C7 counterexample: on the non-empty input of one record with one
divisor (token count 2, bucket 2), the final row's 4..15 sum plus bucket
19 is 0 while 1 record was processed. -/
theorem C7_conservation_counterexample :
    ¬ ((rowOf (runCounter [{ principal := 10, divisors := [3] }]).1.prime_count).sum
          + (runCounter [{ principal := 10, divisors := [3] }]).1.prime_count 19
        = (runCounter [{ principal := 10, divisors := [3] }]).1.counter) := by
  decide

/-- C8 (amended): record parsing fails exactly when the line is empty
(equivalently, it has no tokens, so there is no principal) or some token
is rejected by GMP's base-10 conversion — an optional minus sign followed
immediately by a digit, with further digits and whitespace characters
(skipped wherever they occur) after it; on every other line it succeeds.
This is weaker than failing on every token that is not a valid base-10
integer: a token whose non-digit content is only whitespace, such as a
carriage-return-trailing digit run, is accepted. -/
theorem C8_parse_failure_iff :
    ∀ line : String,
      (parseRecord line = none
        ↔ (line = "" ∨ ∃ t ∈ tokenize line, parseToken t = none))
      ∧ (tokenize line = [] ↔ line = "") :=
  fun line => ⟨parseRecord_eq_none line, tokenize_eq_nil line⟩

/-- C8 counterexample: on the carriage-return-terminated line "10 3\r"
(as read from a CRLF-formatted file), the token "3\r" is not a valid
base-10 integer, yet the conversion accepts it — GMP skips whitespace
inside the string — and parsing the line succeeds with divisor 3, so the
parser does not fail exactly on the claimed condition. -/
theorem C8_parse_counterexample :
    specValidBase10Token ("3\r") = false
    ∧ ("3\r") ∈ tokenize ("10 3\r")
    ∧ parseRecord ("10 3\r") = some { principal := 10, divisors := [3] } := by
  decide

/-- C9: every line written by the filter re-parses to a record whose
principal is divisible by the filter constant. -/
theorem C9_roundtrip :
    ∀ (lines out : List String), imprimitiveMain lines = some out →
      ∀ l ∈ out, ∃ r : Record, parseRecord l = some r
        ∧ r.principal % divisorConst = 0 := by
  intro lines out h l hl
  have he := imprimitiveMain_eq_filter lines out h
  rw [he] at hl
  have hk : keepLine l = true := (List.mem_filter.mp hl).2
  unfold keepLine at hk
  cases hp : parseRecord l with
  | none => rw [hp] at hk; simp at hk
  | some r =>
      rw [hp] at hk
      simp at hk
      exact ⟨r, rfl, Int.emod_eq_zero_of_dvd hk⟩

/-- Witness for C9 at a concrete one-line input kept by the filter. -/
theorem C9_roundtrip_witness :
    ∃ r : Record, parseRecord ("11434529362 2 59") = some r
      ∧ r.principal % divisorConst = 0 :=
  C9_roundtrip [("11434529362 2 59")] [("11434529362 2 59")] (by decide)
    ("11434529362 2 59") (by decide)

/-- C10: over the full emitted row sequence (threshold rows followed by
the final row), each of the twelve reported bucket values is
non-decreasing from each row to the next, and the final row is
componentwise greatest. -/
theorem C10_rows_monotone :
    ∀ (rs : List Record) (row last : List Nat),
      (counterOutput rs).getLast? = some last → row ∈ counterOutput rs →
      List.Chain' rowLE (counterOutput rs) ∧ rowLE row last := by
  intro rs row last hlast hrow
  obtain ⟨hc, hchain, hlow, hhigh⟩ := runCounterAux_chain rs initState
  have hco : counterOutput rs
      = (runCounterAux rs initState).2
        ++ [rowOf (runCounterAux rs initState).1.prime_count] := rfl
  rw [hco] at hlast hrow ⊢
  rw [List.getLast?_concat] at hlast
  have hl : last = rowOf (runCounterAux rs initState).1.prime_count :=
    (Option.some.inj hlast).symm
  rw [hl]
  exact ⟨hchain, hhigh row hrow⟩

/-- Witness for C10 at a concrete one-record input whose only row is the
final row. -/
theorem C10_rows_witness :
    List.Chain' rowLE (counterOutput [{ principal := 500, divisors := [2, 3, 5, 7] }])
    ∧ rowLE [0, 1, 0, 0, 0, 0, 0, 0, 0, 0, 0, 0]
        [0, 1, 0, 0, 0, 0, 0, 0, 0, 0, 0, 0] :=
  C10_rows_monotone [{ principal := 500, divisors := [2, 3, 5, 7] }]
    [0, 1, 0, 0, 0, 0, 0, 0, 0, 0, 0, 0] [0, 1, 0, 0, 0, 0, 0, 0, 0, 0, 0, 0]
    (by decide) (by decide)

